import Mathlib

/-!
Verification of the Core-SNP-filter column-filtering engine.

The development shallowly embeds the program in `src/src/main.rs`:
sequence bytes are `Nat`, bit vectors are `List Bool`, the floating-point
core threshold and per-column fraction are modelled as rationals, and the
fatal `quit_with_error` path is an `Except.error`.
-/

namespace CoreSNP

/-- Per-column accumulated statistics: the four canonical-base presence
bits and the count of sequences with a canonical base at this column
(one cell of the `a`/`c`/`g`/`t` bitvectors and of `acgt_counts` in
`bitvectors_and_counts`). -/
structure ColStats where
  a : Bool
  c : Bool
  g : Bool
  t : Bool
  count : Nat
deriving Repr, DecidableEq, Inhabited

/-- Byte is ASCII `A` (65) or `a` (97). -/
def isA (b : Nat) : Bool := b == 65 || b == 97

/-- Byte is ASCII `C` (67) or `c` (99). -/
def isC (b : Nat) : Bool := b == 67 || b == 99

/-- Byte is ASCII `G` (71) or `g` (103). -/
def isG (b : Nat) : Bool := b == 71 || b == 103

/-- Byte is ASCII `T` (84) or `t` (116). -/
def isT (b : Nat) : Bool := b == 84 || b == 116

/-- Byte is one of the eight canonical-base ASCII letters. -/
def canonical (b : Nat) : Bool := isA b || isC b || isG b || isT b

/-- The `match seq[i]` arms of `bitvectors_and_counts`: a canonical byte
sets its presence bit and increments the count, anything else is a no-op. -/
def updateCol (s : ColStats) (b : Nat) : ColStats :=
  if isA b then { s with a := true, count := s.count + 1 }
  else if isC b then { s with c := true, count := s.count + 1 }
  else if isG b then { s with g := true, count := s.count + 1 }
  else if isT b then { s with t := true, count := s.count + 1 }
  else s

/-- The zero-initialised statistics (`bitvec![0; alignment_length]` and
`vec![0; alignment_length]`). -/
def initStats (L : Nat) : List ColStats :=
  List.replicate L ⟨false, false, false, false, 0⟩

/-- The record loop of `bitvectors_and_counts`: each record must have
length `L` (else `quit_with_error "all sequences must be equal length"`),
the sequence counter is incremented and every byte updates its column. -/
def scanAll (L : Nat) : List (List Nat) → List ColStats → Nat →
    Except String (List ColStats × Nat)
  | [], stats, n => .ok (stats, n)
  | s :: rest, stats, n =>
    if s.length = L then scanAll L rest (List.zipWith updateCol stats s) (n + 1)
    else .error "all sequences must be equal length"

/-- `bitvectors_and_counts`: scan all sequences, starting from the
zero-initialised statistics. -/
def bitvectors_and_counts (L : Nat) (seqs : List (List Nat)) :
    Except String (List ColStats × Nat) :=
  scanAll L seqs (initStats L) 0

/-- `has_variation`: more than one distinct canonical base present. -/
def has_variation (a c g t : Bool) : Bool :=
  a.toNat + c.toNat + g.toNat + t.toNat > 1

/-- What the classification loop of `drop_columns` does to one column:
keep it, drop it as invariant (attributed to A/C/G/T/other), or drop it
as non-core. -/
inductive ColDecision where
  | keep
  | invA
  | invC
  | invG
  | invT
  | invOther
  | nonCore
deriving Repr, DecidableEq, Inhabited

/-- One iteration of the classification loop in `drop_columns`.  The
keep bit starts true; the invariant branch may clear it and pick the
attributed counter; the non-core branch only fires if the bit is still
set and `frac < core`. -/
def classifyCol (exclude_invariant : Bool) (core : ℚ) (seq_count : Nat)
    (s : ColStats) : ColDecision :=
  let variation := has_variation s.a s.c s.g s.t
  let frac : ℚ := (s.count : ℚ) / (seq_count : ℚ)
  let step1 : Bool × ColDecision :=
    if exclude_invariant && !variation then
      (false,
        if s.a then .invA
        else if s.c then .invC
        else if s.g then .invG
        else if s.t then .invT
        else .invOther)
    else (true, .keep)
  if step1.1 = true ∧ frac < core then .nonCore else step1.2

/-- A FASTA record as the program sees it: id, optional description,
and the concatenated sequence bytes (`full_seq`). -/
structure FastaRecord where
  id : String
  desc : Option String
  seq : List Nat
deriving Repr, DecidableEq, Inhabited

/-- `get_fasta_header`: the id, plus a space and the description when
one is present. -/
def get_fasta_header (r : FastaRecord) : String :=
  match r.desc with
  | some d => r.id ++ " " ++ d
  | none => r.id

/-- `remove_columns`: keep exactly the bytes at columns whose keep bit
is set, in column order. -/
def remove_columns : List Bool → List Nat → List Nat
  | k :: ks, b :: bs => (if k then [b] else []) ++ remove_columns ks bs
  | _, _ => []

/-- Swap the case of a canonical-base ASCII byte; any other byte is
unchanged.  Used to state the case-insensitivity property. -/
def flipCase (b : Nat) : Nat :=
  if b == 65 then 97 else if b == 97 then 65
  else if b == 67 then 99 else if b == 99 then 67
  else if b == 71 then 103 else if b == 103 then 71
  else if b == 84 then 116 else if b == 116 then 84
  else b

/-- Two bytes are equal up to canonical-base case. -/
def caseEq (b b' : Nat) : Bool := b' == b || b' == flipCase b

/-- Everything a successful `drop_columns` run computes: the dimensions,
the keep mask, the aggregate counters and the emitted records
(header, projected sequence). -/
structure RunOutput where
  alignment_length : Nat
  seq_count : Nat
  keep : List Bool
  output_size : Nat
  inv_a : Nat
  inv_c : Nat
  inv_g : Nat
  inv_t : Nat
  inv_other : Nat
  non_core : Nat
  records : List (String × List Nat)
deriving Repr, DecidableEq

/-- `drop_columns`: alignment length from the first record
(`get_first_fasta_seq_length`, erroring on empty input), one scanning
pass, per-column classification, then the projection pass. -/
def drop_columns (records : List FastaRecord) (exclude_invariant : Bool)
    (core : ℚ) : Except String RunOutput :=
  match records with
  | [] => .error "contains no sequences"
  | r0 :: rest =>
    let L := r0.seq.length
    match bitvectors_and_counts L ((r0 :: rest).map (fun r => r.seq)) with
    | .error e => .error e
    | .ok (stats, seq_count) =>
      let decisions := stats.map (classifyCol exclude_invariant core seq_count)
      let keep := decisions.map (fun d => d == ColDecision.keep)
      let output_size := (keep.filter (fun b => b == true)).length
      .ok {
        alignment_length := L
        seq_count := seq_count
        keep := keep
        output_size := output_size
        inv_a := decisions.countP (fun d => d == ColDecision.invA)
        inv_c := decisions.countP (fun d => d == ColDecision.invC)
        inv_g := decisions.countP (fun d => d == ColDecision.invG)
        inv_t := decisions.countP (fun d => d == ColDecision.invT)
        inv_other := decisions.countP (fun d => d == ColDecision.invOther)
        non_core := decisions.countP (fun d => d == ColDecision.nonCore)
        records := (r0 :: rest).map
          (fun r => (get_fasta_header r, remove_columns keep r.seq)) }

/-! ### Scanner lemmas -/

theorem updateCol_fields (s : ColStats) (b : Nat) :
    (updateCol s b).a = (s.a || isA b) ∧ (updateCol s b).c = (s.c || isC b) ∧
    (updateCol s b).g = (s.g || isG b) ∧ (updateCol s b).t = (s.t || isT b) ∧
    (updateCol s b).count = s.count + (canonical b).toNat := by
  unfold updateCol canonical
  by_cases hA : isA b = true <;> by_cases hC : isC b = true <;>
    by_cases hG : isG b = true <;> by_cases hT : isT b = true <;>
    simp [hA, hC, hG, hT] <;>
    (exfalso; simp [isA, isC, isG, isT] at hA hC hG hT; omega)

theorem scanAll_ok_length {L : Nat} :
    ∀ (seqs : List (List Nat)) (stats0 : List ColStats) (n : Nat)
      (stats : List ColStats) (m : Nat), stats0.length = L →
      scanAll L seqs stats0 n = .ok (stats, m) → stats.length = L := by
  intro seqs
  induction seqs with
  | nil =>
    intro stats0 n stats m h0 h
    simp [scanAll] at h
    exact h.1 ▸ h0
  | cons x rest ih =>
    intro stats0 n stats m h0 h
    unfold scanAll at h
    split at h
    · next hx =>
      exact ih _ _ _ _ (by rw [List.length_zipWith, h0, hx, Nat.min_self]) h
    · simp at h

theorem scanAll_ok_mem_length {L : Nat} :
    ∀ (seqs : List (List Nat)) (stats0 : List ColStats) (n : Nat)
      (stats : List ColStats) (m : Nat),
      scanAll L seqs stats0 n = .ok (stats, m) → ∀ s ∈ seqs, s.length = L := by
  intro seqs
  induction seqs with
  | nil => intro _ _ _ _ _ s hs; simp at hs
  | cons x rest ih =>
    intro stats0 n stats m h s hs
    unfold scanAll at h
    split at h
    · next hx =>
      rcases List.mem_cons.mp hs with rfl | hmem
      · exact hx
      · exact ih _ _ _ _ h s hmem
    · simp at h

theorem scanAll_ok_seq_count {L : Nat} :
    ∀ (seqs : List (List Nat)) (stats0 : List ColStats) (n : Nat)
      (stats : List ColStats) (m : Nat),
      scanAll L seqs stats0 n = .ok (stats, m) → m = n + seqs.length := by
  intro seqs
  induction seqs with
  | nil =>
    intro stats0 n stats m h
    simp [scanAll] at h
    simp [h.2]
  | cons x rest ih =>
    intro stats0 n stats m h
    unfold scanAll at h
    split at h
    · have := ih _ _ _ _ h
      simp [this]
      omega
    · simp at h

theorem scanAll_error_eq {L : Nat} :
    ∀ (seqs : List (List Nat)) (stats0 : List ColStats) (n : Nat) (e : String),
      scanAll L seqs stats0 n = .error e →
      e = "all sequences must be equal length" := by
  intro seqs
  induction seqs with
  | nil => intro _ _ e h; simp [scanAll] at h
  | cons x rest ih =>
    intro stats0 n e h
    unfold scanAll at h
    split at h
    · exact ih _ _ _ h
    · simp at h
      exact h.symm

theorem getElem!_zipWith_updateCol (stats : List ColStats) (s : List Nat)
    (i : Nat) (h1 : i < stats.length) (h2 : i < s.length) :
    (List.zipWith updateCol stats s)[i]! = updateCol stats[i]! s[i]! := by
  have hz : i < (List.zipWith updateCol stats s).length := by
    rw [List.length_zipWith]; omega
  rw [getElem!_pos (List.zipWith updateCol stats s) i hz, getElem!_pos stats i h1,
    getElem!_pos s i h2, List.getElem_zipWith]

theorem initStats_getElem! (L i : Nat) (hi : i < L) :
    (initStats L)[i]! = ⟨false, false, false, false, 0⟩ := by
  have h : i < (initStats L).length := by simp [initStats]; exact hi
  rw [getElem!_pos (initStats L) i h]
  simp [initStats]

theorem scanAll_stats_spec {L : Nat} :
    ∀ (seqs : List (List Nat)) (stats0 : List ColStats) (n : Nat)
      (stats : List ColStats) (m : Nat), stats0.length = L →
      scanAll L seqs stats0 n = .ok (stats, m) →
      ∀ i, i < L →
        stats[i]!.a = (stats0[i]!.a || seqs.any (fun s => isA s[i]!)) ∧
        stats[i]!.c = (stats0[i]!.c || seqs.any (fun s => isC s[i]!)) ∧
        stats[i]!.g = (stats0[i]!.g || seqs.any (fun s => isG s[i]!)) ∧
        stats[i]!.t = (stats0[i]!.t || seqs.any (fun s => isT s[i]!)) ∧
        stats[i]!.count = stats0[i]!.count + seqs.countP (fun s => canonical s[i]!) := by
  intro seqs
  induction seqs with
  | nil =>
    intro stats0 n stats m h0 h i hi
    simp [scanAll] at h
    rw [← h.1]
    simp
  | cons x rest ih =>
    intro stats0 n stats m h0 h i hi
    unfold scanAll at h
    split at h
    · next hx =>
      have hzlen : (List.zipWith updateCol stats0 x).length = L := by
        rw [List.length_zipWith, h0, hx, Nat.min_self]
      have hz : (List.zipWith updateCol stats0 x)[i]! = updateCol stats0[i]! x[i]! :=
        getElem!_zipWith_updateCol stats0 x i (h0 ▸ hi) (hx ▸ hi)
      obtain ⟨ha, hc, hg, ht, hcount⟩ := ih _ _ _ _ hzlen h i hi
      rw [hz] at ha hc hg ht hcount
      have hu := updateCol_fields stats0[i]! x[i]!
      refine ⟨?_, ?_, ?_, ?_, ?_⟩
      · rw [ha, hu.1]; simp [Bool.or_assoc]
      · rw [hc, hu.2.1]; simp [Bool.or_assoc]
      · rw [hg, hu.2.2.1]; simp [Bool.or_assoc]
      · rw [ht, hu.2.2.2.1]; simp [Bool.or_assoc]
      · rw [hcount, hu.2.2.2.2, List.countP_cons]
        rcases hb : canonical x[i]! <;> simp [hb] <;> omega
    · simp at h

/-! ### Projector lemmas -/

theorem remove_columns_zip : ∀ (ks : List Bool) (bs : List Nat),
    remove_columns ks bs = ((bs.zip ks).filter (fun p => p.2)).map Prod.fst := by
  intro ks
  induction ks with
  | nil => intro bs; cases bs <;> rfl
  | cons k ks ih =>
    intro bs
    cases bs with
    | nil => rfl
    | cons b bs =>
      cases k <;> simp [remove_columns, ih]

theorem remove_columns_length : ∀ (ks : List Bool) (bs : List Nat),
    ks.length = bs.length →
    (remove_columns ks bs).length = (ks.filter (fun b => b == true)).length := by
  intro ks
  induction ks with
  | nil => intro bs h; cases bs <;> simp_all [remove_columns]
  | cons k ks ih =>
    intro bs h
    cases bs with
    | nil => simp at h
    | cons b bs =>
      simp at h
      cases k <;> simp [remove_columns, ih bs h]

theorem remove_columns_replicate_true : ∀ (bs : List Nat),
    remove_columns (List.replicate bs.length true) bs = bs := by
  intro bs
  induction bs with
  | nil => rfl
  | cons b bs ih => simp [List.replicate, remove_columns, ih]

/-! ### Decision lemmas -/

theorem decision_partition (l : List ColDecision) :
    l.countP (fun d => d == ColDecision.keep) +
      (l.countP (fun d => d == ColDecision.invA) +
       l.countP (fun d => d == ColDecision.invC) +
       l.countP (fun d => d == ColDecision.invG) +
       l.countP (fun d => d == ColDecision.invT) +
       l.countP (fun d => d == ColDecision.invOther)) +
      l.countP (fun d => d == ColDecision.nonCore) = l.length := by
  induction l with
  | nil => simp
  | cons d rest ih =>
    rcases d <;> simp [List.countP_cons] <;> omega

theorem classifyCol_keep_of_le (excl : Bool) (t1 t2 : ℚ) (h12 : t1 ≤ t2)
    (n : Nat) (s : ColStats) :
    classifyCol excl t2 n s = ColDecision.keep →
    classifyCol excl t1 n s = ColDecision.keep := by
  unfold classifyCol
  intro h
  by_cases hinv : (excl && !has_variation s.a s.c s.g s.t) = true
  · simp only [hinv, if_true] at h
    simp at h
    split at h <;> simp_all
  · have hinv' : (excl && !has_variation s.a s.c s.g s.t) = false := by
      simpa using hinv
    simp only [hinv', Bool.false_eq_true, if_false] at h ⊢
    by_cases hf1 : (s.count : ℚ) / (n : ℚ) < t1
    · exfalso
      have hf2 : (s.count : ℚ) / (n : ℚ) < t2 := lt_of_lt_of_le hf1 h12
      simp [hf2] at h
    · simp [hf1]

theorem classifyCol_zero_keep (n : Nat) (s : ColStats) :
    classifyCol false 0 n s = ColDecision.keep := by
  unfold classifyCol
  have hge : (0 : ℚ) ≤ (s.count : ℚ) / (n : ℚ) := by positivity
  simp [not_lt.mpr hge]

/-! ### Case-insensitivity lemmas -/

theorem flipCase_classes (b : Nat) :
    isA (flipCase b) = isA b ∧ isC (flipCase b) = isC b ∧
    isG (flipCase b) = isG b ∧ isT (flipCase b) = isT b := by
  unfold flipCase
  repeat' split
  all_goals simp_all [isA, isC, isG, isT]

theorem updateCol_caseEq (s : ColStats) (b b' : Nat) (h : caseEq b b' = true) :
    updateCol s b' = updateCol s b := by
  unfold caseEq at h
  simp only [Bool.or_eq_true, beq_iff_eq] at h
  rcases h with rfl | rfl
  · rfl
  · obtain ⟨e1, e2, e3, e4⟩ := flipCase_classes b
    unfold updateCol
    rw [e1, e2, e3, e4]

theorem zipWith_updateCol_caseEq :
    ∀ (s1 s2 : List Nat) (stats : List ColStats),
      List.Forall₂ (fun b b' => caseEq b b' = true) s1 s2 →
      List.zipWith updateCol stats s2 = List.zipWith updateCol stats s1 := by
  intro s1 s2 stats h
  induction h generalizing stats with
  | nil => rfl
  | cons hbb htail ih =>
    cases stats with
    | nil => rfl
    | cons st stats =>
      simp only [List.zipWith]
      rw [updateCol_caseEq st _ _ hbb, ih]

theorem scanAll_caseEq (L : Nat) :
    ∀ (seqs1 seqs2 : List (List Nat)),
      List.Forall₂ (fun s1 s2 =>
        List.Forall₂ (fun b b' => caseEq b b' = true) s1 s2) seqs1 seqs2 →
      ∀ (stats : List ColStats) (n : Nat),
        scanAll L seqs2 stats n = scanAll L seqs1 stats n := by
  intro seqs1 seqs2 h
  induction h with
  | nil => intro stats n; rfl
  | @cons x y l1 l2 hxy hl ih =>
    intro stats n
    unfold scanAll
    rw [← hxy.length_eq]
    split
    · rw [zipWith_updateCol_caseEq x y stats hxy, ih]
    · rfl

/-! ### Run inversion -/

theorem drop_columns_ok_inv (r0 : FastaRecord) (rest : List FastaRecord)
    (excl : Bool) (core : ℚ) (out : RunOutput)
    (h : drop_columns (r0 :: rest) excl core = .ok out) :
    ∃ stats n,
      bitvectors_and_counts r0.seq.length ((r0 :: rest).map (fun r => r.seq)) =
        .ok (stats, n) ∧
      out = { alignment_length := r0.seq.length
              seq_count := n
              keep := (stats.map (classifyCol excl core n)).map
                (fun d => d == ColDecision.keep)
              output_size := (((stats.map (classifyCol excl core n)).map
                (fun d => d == ColDecision.keep)).filter
                  (fun b => b == true)).length
              inv_a := (stats.map (classifyCol excl core n)).countP
                (fun d => d == ColDecision.invA)
              inv_c := (stats.map (classifyCol excl core n)).countP
                (fun d => d == ColDecision.invC)
              inv_g := (stats.map (classifyCol excl core n)).countP
                (fun d => d == ColDecision.invG)
              inv_t := (stats.map (classifyCol excl core n)).countP
                (fun d => d == ColDecision.invT)
              inv_other := (stats.map (classifyCol excl core n)).countP
                (fun d => d == ColDecision.invOther)
              non_core := (stats.map (classifyCol excl core n)).countP
                (fun d => d == ColDecision.nonCore)
              records := (r0 :: rest).map (fun r => (get_fasta_header r,
                remove_columns ((stats.map (classifyCol excl core n)).map
                  (fun d => d == ColDecision.keep)) r.seq)) } := by
  simp only [drop_columns] at h
  cases hbc : bitvectors_and_counts r0.seq.length
      ((r0 :: rest).map (fun r => r.seq)) with
  | error e => rw [hbc] at h; simp at h
  | ok p =>
    obtain ⟨stats, n⟩ := p
    rw [hbc] at h
    simp only [Except.ok.injEq] at h
    exact ⟨stats, n, rfl, h.symm⟩

theorem keep_filter_count (decs : List ColDecision) :
    ((decs.map (fun d => d == ColDecision.keep)).filter
      (fun b => b == true)).length =
      decs.countP (fun d => d == ColDecision.keep) := by
  rw [← List.countP_eq_length_filter, List.countP_map]
  congr 1
  funext d
  simp [Function.comp]

/-! ### The claims -/

/-- Claim C1: for a column's accumulated statistics (with a positive
sequence count), the keep/drop decision is taken in order, first match
winning: when invariant exclusion is on and at most one distinct
canonical base is present, the column is dropped as an invariant drop
attributed to the single present base, or to other-invariant when no
canonical base is present; otherwise, when `canonicalCount / seqCount`
is below the core threshold the column is dropped as non-core; otherwise
it is kept. -/
theorem claim_C1 (excl : Bool) (core : ℚ) (n : Nat) (hn : 0 < n)
    (s : ColStats) :
    ((excl = true ∧ s.a.toNat + s.c.toNat + s.g.toNat + s.t.toNat ≤ 1) →
      ((s.a = true → classifyCol excl core n s = ColDecision.invA) ∧
       (s.c = true → classifyCol excl core n s = ColDecision.invC) ∧
       (s.g = true → classifyCol excl core n s = ColDecision.invG) ∧
       (s.t = true → classifyCol excl core n s = ColDecision.invT) ∧
       (s.a = false → s.c = false → s.g = false → s.t = false →
         classifyCol excl core n s = ColDecision.invOther))) ∧
    (¬(excl = true ∧ s.a.toNat + s.c.toNat + s.g.toNat + s.t.toNat ≤ 1) →
      (((s.count : ℚ) / (n : ℚ) < core →
         classifyCol excl core n s = ColDecision.nonCore) ∧
       (¬((s.count : ℚ) / (n : ℚ) < core) →
         classifyCol excl core n s = ColDecision.keep))) := by
  rcases s with ⟨a, c, g, t, count⟩
  by_cases hf : (count : ℚ) / (n : ℚ) < core <;>
    rcases a <;> rcases c <;> rcases g <;> rcases t <;> rcases excl <;>
    simp [classifyCol, has_variation, hf]

/-- Witness for C1: an all-A column with invariant exclusion on is
dropped as an invariant-A column. -/
theorem claim_C1_witness :
    classifyCol true 0 1 ⟨true, false, false, false, 1⟩ = ColDecision.invA :=
  ((claim_C1 true 0 1 (by decide) ⟨true, false, false, false, 1⟩).1
    (by simp)).1 rfl

/-- Claim C3: after a successful scan, the sequence count is the number
of records; at every column each presence bit is set iff some record
carries that canonical base (upper- or lower-case) there; the canonical
count at a column counts the records whose byte there is one of the
eight canonical ASCII letters; every other byte contributes to neither. -/
theorem claim_C3 (L : Nat) (seqs : List (List Nat)) (stats : List ColStats)
    (n : Nat) (h : bitvectors_and_counts L seqs = .ok (stats, n)) :
    n = seqs.length ∧
    ∀ i, i < L →
      (stats[i]!.a = true ↔ ∃ s ∈ seqs, s[i]! = 65 ∨ s[i]! = 97) ∧
      (stats[i]!.c = true ↔ ∃ s ∈ seqs, s[i]! = 67 ∨ s[i]! = 99) ∧
      (stats[i]!.g = true ↔ ∃ s ∈ seqs, s[i]! = 71 ∨ s[i]! = 103) ∧
      (stats[i]!.t = true ↔ ∃ s ∈ seqs, s[i]! = 84 ∨ s[i]! = 116) ∧
      stats[i]!.count = seqs.countP (fun s => canonical s[i]!) ∧
      (∀ b : Nat, canonical b = true ↔
        b = 65 ∨ b = 97 ∨ b = 67 ∨ b = 99 ∨ b = 71 ∨ b = 103 ∨ b = 84 ∨
          b = 116) := by
  have hn := scanAll_ok_seq_count (L := L) seqs (initStats L) 0 stats n h
  refine ⟨by omega, ?_⟩
  intro i hi
  have hspec := scanAll_stats_spec (L := L) seqs (initStats L) 0 stats n
    (by simp [initStats]) h i hi
  rw [initStats_getElem! L i hi] at hspec
  obtain ⟨ha, hc, hg, ht, hcount⟩ := hspec
  simp only [Bool.false_or, Nat.zero_add] at ha hc hg ht hcount
  refine ⟨?_, ?_, ?_, ?_, ?_, ?_⟩
  · rw [ha]; simp [isA]
  · rw [hc]; simp [isC]
  · rw [hg]; simp [isG]
  · rw [ht]; simp [isT]
  · exact hcount
  · intro b; simp [canonical, isA, isC, isG, isT]; tauto

/-- Witness for C3 on the two-record alignment `A-` / `ct`:
the A presence bit of column 0 matches the existence of an `A`/`a` byte. -/
theorem claim_C3_witness :
    ([⟨true, true, false, false, 2⟩, ⟨false, false, false, true, 1⟩] :
      List ColStats)[0]!.a = true ↔
      ∃ s ∈ ([[65, 45], [99, 84]] : List (List Nat)),
        s[0]! = 65 ∨ s[0]! = 97 :=
  ((claim_C3 2 [[65, 45], [99, 84]]
    [⟨true, true, false, false, 2⟩, ⟨false, false, false, true, 1⟩] 2
    rfl).2 0 (by decide)).1

/-- Claim C9: with a core threshold of 1, a column passes the
core-fraction test iff its canonical count equals the sequence count.
Unless the column was already dropped by the invariant branch, it is
kept iff the count is full, and dropped as non-core whenever even one
sequence lacks a canonical base there. -/
theorem claim_C9 (n : Nat) (hn : 0 < n) (s : ColStats) (hc : s.count ≤ n)
    (excl : Bool) :
    ((¬((s.count : ℚ) / (n : ℚ) < 1)) ↔ s.count = n) ∧
    (¬(excl = true ∧ has_variation s.a s.c s.g s.t = false) →
      ((classifyCol excl 1 n s = ColDecision.keep ↔ s.count = n) ∧
       (s.count < n → classifyCol excl 1 n s = ColDecision.nonCore))) := by
  have hfrac : ((s.count : ℚ) / (n : ℚ) < 1) ↔ s.count < n := by
    rw [div_lt_one (by exact_mod_cast hn)]
    exact_mod_cast Nat.cast_lt
  constructor
  · rw [hfrac]
    omega
  · intro hni
    have hb : (excl && !has_variation s.a s.c s.g s.t) = false := by
      rcases excl <;> rcases hv : has_variation s.a s.c s.g s.t <;> simp_all
    have hcls : classifyCol excl 1 n s =
        if (s.count : ℚ) / (n : ℚ) < 1 then ColDecision.nonCore
        else ColDecision.keep := by
      unfold classifyCol
      simp [hb]
    constructor
    · rw [hcls]
      by_cases hlt : (s.count : ℚ) / (n : ℚ) < 1
      · rw [if_pos hlt]
        rw [hfrac] at hlt
        simp
        omega
      · rw [if_neg hlt]
        rw [hfrac] at hlt
        simp
        omega
    · intro hlt
      rw [hcls, if_pos (hfrac.mpr hlt)]

/-- Witness for C9: a column carried by one of two sequences fails the
full-core test and is dropped as non-core. -/
theorem claim_C9_witness :
    classifyCol false 1 2 ⟨true, false, false, false, 1⟩ =
      ColDecision.nonCore :=
  ((claim_C9 2 (by decide) ⟨true, false, false, false, 1⟩ (by decide)
    false).2 (by simp)).2 (by decide)

/-- Claim C10: scanner invariant — at every column the canonical count
is at most the sequence count, it is zero exactly when all four presence
bits are clear, the fraction `count / seqCount` lies in `[0, 1]`, and a
zero-count column never shows variation. -/
theorem claim_C10 (L : Nat) (seqs : List (List Nat)) (stats : List ColStats)
    (n : Nat) (h : bitvectors_and_counts L seqs = .ok (stats, n)) :
    ∀ i, i < L →
      stats[i]!.count ≤ n ∧
      (stats[i]!.count = 0 ↔
        stats[i]!.a = false ∧ stats[i]!.c = false ∧ stats[i]!.g = false ∧
          stats[i]!.t = false) ∧
      0 ≤ (stats[i]!.count : ℚ) / (n : ℚ) ∧
      (stats[i]!.count : ℚ) / (n : ℚ) ≤ 1 ∧
      (stats[i]!.count = 0 →
        has_variation stats[i]!.a stats[i]!.c stats[i]!.g stats[i]!.t =
          false) := by
  have hn := scanAll_ok_seq_count (L := L) seqs (initStats L) 0 stats n h
  intro i hi
  have hspec := scanAll_stats_spec (L := L) seqs (initStats L) 0 stats n
    (by simp [initStats]) h i hi
  rw [initStats_getElem! L i hi] at hspec
  obtain ⟨ha, hc, hg, ht, hcount⟩ := hspec
  simp only [Bool.false_or, Nat.zero_add] at ha hc hg ht hcount
  have hle : stats[i]!.count ≤ n := by
    rw [hcount, hn]
    simpa using List.countP_le_length _
  have hiff : stats[i]!.count = 0 ↔
      stats[i]!.a = false ∧ stats[i]!.c = false ∧ stats[i]!.g = false ∧
        stats[i]!.t = false := by
    rw [hcount, ha, hc, hg, ht, List.countP_eq_zero]
    constructor
    · intro hz
      refine ⟨?_, ?_, ?_, ?_⟩ <;> rw [List.any_eq_false] <;> intro s hs <;>
        have hcs := hz s hs <;>
        simp only [canonical, Bool.or_eq_true, not_or] at hcs <;> tauto
    · intro hf s hs
      obtain ⟨f1, f2, f3, f4⟩ := hf
      rw [List.any_eq_false] at f1 f2 f3 f4
      simp only [canonical, Bool.or_eq_true, not_or]
      exact ⟨⟨⟨f1 s hs, f2 s hs⟩, f3 s hs⟩, f4 s hs⟩
  refine ⟨hle, hiff, ?_, ?_, ?_⟩
  · positivity
  · rcases Nat.eq_zero_or_pos n with hz | hp
    · subst hz
      simp
    · rw [div_le_one (by exact_mod_cast hp)]
      exact_mod_cast hle
  · intro hz
    obtain ⟨e1, e2, e3, e4⟩ := hiff.mp hz
    rw [e1, e2, e3, e4]
    decide

/-- Witness for C10: on the alignment `A-` / `ct`, column 1 has count
at most the sequence count and a nonnegative core fraction. -/
theorem claim_C10_witness :
    (([⟨true, true, false, false, 2⟩, ⟨false, false, false, true, 1⟩] :
      List ColStats)[1]!.count ≤ 2) ∧
    (0 : ℚ) ≤
      (([⟨true, true, false, false, 2⟩, ⟨false, false, false, true, 1⟩] :
        List ColStats)[1]!.count : ℚ) / ((2 : Nat) : ℚ) :=
  ⟨(claim_C10 2 [[65, 45], [99, 84]]
      [⟨true, true, false, false, 2⟩, ⟨false, false, false, true, 1⟩] 2
      rfl 1 (by decide)).1,
   (claim_C10 2 [[65, 45], [99, 84]]
      [⟨true, true, false, false, 2⟩, ⟨false, false, false, true, 1⟩] 2
      rfl 1 (by decide)).2.2.1⟩

/-- Claim C2: every successful run reconciles exactly — the alignment
length equals the output width plus the invariant drops plus the
non-core drops; the invariant and non-core drop categories are disjoint
(a column gets a single decision); and every emitted record's projected
sequence has length equal to the output width. -/
theorem claim_C2 (records : List FastaRecord) (excl : Bool) (core : ℚ)
    (out : RunOutput) (h : drop_columns records excl core = .ok out) :
    out.alignment_length =
      out.output_size +
        (out.inv_a + out.inv_c + out.inv_g + out.inv_t + out.inv_other) +
        out.non_core ∧
    (∀ d : ColDecision, ¬((d == ColDecision.nonCore) = true ∧
      (d == ColDecision.invA || d == ColDecision.invC ||
       d == ColDecision.invG || d == ColDecision.invT ||
       d == ColDecision.invOther) = true)) ∧
    ∀ p ∈ out.records, p.2.length = out.output_size := by
  cases records with
  | nil => simp [drop_columns] at h
  | cons r0 rest =>
    obtain ⟨stats, n, hbc, rfl⟩ := drop_columns_ok_inv r0 rest excl core out h
    dsimp only
    have hstatlen : stats.length = r0.seq.length :=
      scanAll_ok_length _ _ _ _ _ (by simp [initStats]) hbc
    refine ⟨?_, by intro d; rcases d <;> simp, ?_⟩
    · rw [keep_filter_count]
      have hpart := decision_partition (stats.map (classifyCol excl core n))
      simp only [List.length_map] at hpart
      omega
    · intro p hp
      simp only [List.mem_map] at hp
      obtain ⟨r, hr, rfl⟩ := hp
      dsimp only
      have hrl : r.seq.length = r0.seq.length :=
        scanAll_ok_mem_length _ _ _ _ _ hbc r.seq (List.mem_map_of_mem _ hr)
      have hlen : ((stats.map (classifyCol excl core n)).map
          (fun d => d == ColDecision.keep)).length = r.seq.length := by
        simp [hstatlen, hrl]
      rw [remove_columns_length _ _ hlen]

unseal Rat.mul Rat.inv in
/-- Witness for C2: on the run over `AC` / `AT` with invariant exclusion
and threshold 0, the alignment length 2 splits as one kept column, one
invariant-A drop and no non-core drop. -/
theorem claim_C2_witness : (2 : Nat) = 1 + (1 + 0 + 0 + 0 + 0) + 0 :=
  (claim_C2 [⟨"s1", none, [65, 67]⟩, ⟨"s2", none, [65, 84]⟩] true 0
    ⟨2, 2, [false, true], 1, 1, 0, 0, 0, 0, 0, [("s1", [67]), ("s2", [84])]⟩
    rfl).1

/-- Claim C4: a successful run emits exactly one output record per input
record, in input order; the header is the id, followed by a single space
and the description when one is present, with no transformation of the
header text; the output sequence is exactly the record's original bytes
at the kept columns, in original column order. -/
theorem claim_C4 (records : List FastaRecord) (excl : Bool) (core : ℚ)
    (out : RunOutput) (h : drop_columns records excl core = .ok out) :
    out.records.length = records.length ∧
    out.records = records.map (fun r =>
      ((match r.desc with
        | some d => r.id ++ " " ++ d
        | none => r.id),
       ((r.seq.zip out.keep).filter (fun p => p.2)).map Prod.fst)) := by
  cases records with
  | nil => simp [drop_columns] at h
  | cons r0 rest =>
    obtain ⟨stats, n, hbc, rfl⟩ := drop_columns_ok_inv r0 rest excl core out h
    dsimp only
    refine ⟨by simp, ?_⟩
    apply List.map_congr_left
    intro r hr
    rw [remove_columns_zip]
    rfl

unseal Rat.mul Rat.inv in
/-- Witness for C4: the run over `AC` / `AT` (with a description on the
first record) emits the records in order with passthrough headers and
the kept-column bytes. -/
theorem claim_C4_witness :
    ([("s1 info", [67]), ("s2", [84])] : List (String × List Nat)) =
      ([⟨"s1", some "info", [65, 67]⟩, ⟨"s2", none, [65, 84]⟩] :
        List FastaRecord).map (fun r =>
        ((match r.desc with
          | some d => r.id ++ " " ++ d
          | none => r.id),
         ((r.seq.zip [false, true]).filter (fun p => p.2)).map Prod.fst)) :=
  (claim_C4 [⟨"s1", some "info", [65, 67]⟩, ⟨"s2", none, [65, 84]⟩] true 0
    ⟨2, 2, [false, true], 1, 1, 0, 0, 0, 0, 0,
      [("s1 info", [67]), ("s2", [84])]⟩ rfl).2

/-- Claim C5: an input containing a record whose sequence length differs
from the first record's fails with the length-mismatch error, producing
no output records. -/
theorem claim_C5 (records : List FastaRecord) (excl : Bool) (core : ℚ)
    (r0 : FastaRecord) (h0 : records.head? = some r0) (r : FastaRecord)
    (hr : r ∈ records) (hne : r.seq.length ≠ r0.seq.length) :
    drop_columns records excl core =
      .error "all sequences must be equal length" := by
  cases records with
  | nil => simp at h0
  | cons x rest =>
    simp at h0
    subst h0
    simp only [drop_columns]
    cases hbc : bitvectors_and_counts x.seq.length
        ((x :: rest).map (fun r => r.seq)) with
    | ok p =>
      exfalso
      obtain ⟨stats, n⟩ := p
      exact hne
        (scanAll_ok_mem_length _ _ _ _ _ hbc r.seq (List.mem_map_of_mem _ hr))
    | error e =>
      have he : e = "all sequences must be equal length" :=
        scanAll_error_eq _ _ _ _ hbc
      rw [he]

/-- Witness for C5: a two-record input whose second record is longer
than the first fails with the length-mismatch error. -/
theorem claim_C5_witness :
    drop_columns [⟨"a", none, [65]⟩, ⟨"b", none, [65, 67]⟩] true 0 =
      .error "all sequences must be equal length" :=
  claim_C5 [⟨"a", none, [65]⟩, ⟨"b", none, [65, 67]⟩] true 0
    ⟨"a", none, [65]⟩ rfl ⟨"b", none, [65, 67]⟩ (by simp) (by decide)

/-- Claim C6: with a core threshold of 0 and invariant exclusion off,
every column is kept, every record's sequence is reproduced unchanged,
and the output width equals the alignment length. -/
theorem claim_C6 (records : List FastaRecord) (out : RunOutput)
    (h : drop_columns records false 0 = .ok out) :
    out.keep = List.replicate out.alignment_length true ∧
    out.records = records.map (fun r => (get_fasta_header r, r.seq)) ∧
    out.output_size = out.alignment_length := by
  cases records with
  | nil => simp [drop_columns] at h
  | cons r0 rest =>
    obtain ⟨stats, n, hbc, rfl⟩ := drop_columns_ok_inv r0 rest false 0 out h
    have hstatlen : stats.length = r0.seq.length :=
      scanAll_ok_length _ _ _ _ _ (by simp [initStats]) hbc
    have hkeep : (stats.map (classifyCol false 0 n)).map
        (fun d => d == ColDecision.keep) =
        List.replicate stats.length true := by
      rw [List.map_map]
      have hconst : ((fun d => d == ColDecision.keep) ∘ classifyCol false 0 n) =
          fun _ : ColStats => true := by
        funext s
        simp [Function.comp, classifyCol_zero_keep]
      rw [hconst, List.map_const']
    dsimp only
    refine ⟨?_, ?_, ?_⟩
    · rw [hkeep, hstatlen]
    · rw [hkeep]
      apply List.map_congr_left
      intro r hr
      have hrl : r.seq.length = r0.seq.length :=
        scanAll_ok_mem_length _ _ _ _ _ hbc r.seq (List.mem_map_of_mem _ hr)
      have hsl : stats.length = r.seq.length := hstatlen.trans hrl.symm
      rw [hsl, remove_columns_replicate_true]
    · rw [hkeep]
      simp [hstatlen]

unseal Rat.mul Rat.inv in
/-- Witness for C6: the identity run over `AC` / `G-` reproduces both
records unchanged. -/
theorem claim_C6_witness :
    ([("s1", [65, 67]), ("s2", [71, 45])] : List (String × List Nat)) =
      ([⟨"s1", none, [65, 67]⟩, ⟨"s2", none, [71, 45]⟩] :
        List FastaRecord).map (fun r => (get_fasta_header r, r.seq)) :=
  (claim_C6 [⟨"s1", none, [65, 67]⟩, ⟨"s2", none, [71, 45]⟩]
    ⟨2, 2, [true, true], 2, 0, 0, 0, 0, 0, 0,
      [("s1", [65, 67]), ("s2", [71, 45])]⟩ rfl).2.1

/-- Claim C7: for a fixed input and fixed invariant-exclusion flag,
raising the core threshold never increases the output width. -/
theorem claim_C7 (records : List FastaRecord) (excl : Bool) (t1 t2 : ℚ)
    (h12 : t1 ≤ t2) (o1 o2 : RunOutput)
    (h1 : drop_columns records excl t1 = .ok o1)
    (h2 : drop_columns records excl t2 = .ok o2) :
    o2.output_size ≤ o1.output_size := by
  cases records with
  | nil => simp [drop_columns] at h1
  | cons r0 rest =>
    obtain ⟨stats1, n1, hbc1, rfl⟩ := drop_columns_ok_inv r0 rest excl t1 o1 h1
    obtain ⟨stats2, n2, hbc2, rfl⟩ := drop_columns_ok_inv r0 rest excl t2 o2 h2
    rw [hbc1] at hbc2
    simp only [Except.ok.injEq, Prod.mk.injEq] at hbc2
    obtain ⟨rfl, rfl⟩ := hbc2
    dsimp only
    rw [keep_filter_count, keep_filter_count, List.countP_map, List.countP_map]
    apply List.countP_mono_left
    intro s _
    simp only [Function.comp_apply, beq_iff_eq]
    exact classifyCol_keep_of_le excl t1 t2 h12 n1 s

unseal Rat.mul Rat.inv in
/-- Witness for C7: on `A-` / `AT`, threshold 1 keeps one column while
threshold 0 keeps both. -/
theorem claim_C7_witness : (1 : Nat) ≤ 2 :=
  claim_C7 [⟨"s1", none, [65, 45]⟩, ⟨"s2", none, [65, 84]⟩] false 0 1
    (by norm_num)
    ⟨2, 2, [true, true], 2, 0, 0, 0, 0, 0, 0,
      [("s1", [65, 45]), ("s2", [65, 84])]⟩
    ⟨2, 2, [true, false], 1, 0, 0, 0, 0, 0, 1, [("s1", [65]), ("s2", [65])]⟩
    rfl rfl

/-- Claim C8: replacing sequence bytes by their opposite-case
counterparts leaves the scanner's statistics, the keep mask, the output
width and every drop counter unchanged, while each record's own
(case-preserved) bytes are projected through the shared mask. -/
theorem claim_C8 (rs1 rs2 : List FastaRecord) (excl : Bool) (core : ℚ)
    (hrel : List.Forall₂ (fun r1 r2 =>
      List.Forall₂ (fun b b' => caseEq b b' = true) r1.seq r2.seq) rs1 rs2)
    (o1 o2 : RunOutput)
    (h1 : drop_columns rs1 excl core = .ok o1)
    (h2 : drop_columns rs2 excl core = .ok o2) :
    o1.keep = o2.keep ∧ o1.output_size = o2.output_size ∧
    o1.alignment_length = o2.alignment_length ∧ o1.seq_count = o2.seq_count ∧
    o1.inv_a = o2.inv_a ∧ o1.inv_c = o2.inv_c ∧ o1.inv_g = o2.inv_g ∧
    o1.inv_t = o2.inv_t ∧ o1.inv_other = o2.inv_other ∧
    o1.non_core = o2.non_core ∧
    o2.records = rs2.map (fun r =>
      (get_fasta_header r, remove_columns o1.keep r.seq)) := by
  cases hrel with
  | nil => simp [drop_columns] at h1
  | @cons r1 r2 rest1 rest2 hr hrest =>
    have hseqs : List.Forall₂ (fun s1 s2 =>
        List.Forall₂ (fun b b' => caseEq b b' = true) s1 s2)
        ((r1 :: rest1).map (fun r => r.seq))
        ((r2 :: rest2).map (fun r => r.seq)) := by
      rw [List.forall₂_map_left_iff, List.forall₂_map_right_iff]
      exact List.Forall₂.cons hr hrest
    have hL : r2.seq.length = r1.seq.length := hr.length_eq.symm
    have hbceq : bitvectors_and_counts r2.seq.length
        ((r2 :: rest2).map (fun r => r.seq)) =
        bitvectors_and_counts r1.seq.length
          ((r1 :: rest1).map (fun r => r.seq)) := by
      rw [hL]
      unfold bitvectors_and_counts
      exact scanAll_caseEq r1.seq.length _ _ hseqs (initStats r1.seq.length) 0
    obtain ⟨stats1, n1, hbc1, rfl⟩ := drop_columns_ok_inv r1 rest1 excl core o1 h1
    obtain ⟨stats2, n2, hbc2, rfl⟩ := drop_columns_ok_inv r2 rest2 excl core o2 h2
    rw [hbceq, hbc1] at hbc2
    simp only [Except.ok.injEq, Prod.mk.injEq] at hbc2
    obtain ⟨rfl, rfl⟩ := hbc2
    dsimp only
    refine ⟨rfl, rfl, hL.symm, rfl, rfl, rfl, rfl, rfl, rfl, rfl, rfl⟩

/-- Witness for C8: the single-record inputs `A` and `a` are classified
identically (column dropped as invariant-A), and the second run's output
is its own bytes projected through the shared mask. -/
theorem claim_C8_witness :
    ([("s", ([] : List Nat))] : List (String × List Nat)) =
      ([⟨"s", none, [97]⟩] : List FastaRecord).map
        (fun r => (get_fasta_header r, remove_columns [false] r.seq)) :=
  (claim_C8 [⟨"s", none, [65]⟩] [⟨"s", none, [97]⟩] true 0
    (List.Forall₂.cons (List.Forall₂.cons (by decide) List.Forall₂.nil)
      List.Forall₂.nil)
    ⟨1, 1, [false], 0, 1, 0, 0, 0, 0, 0, [("s", [])]⟩
    ⟨1, 1, [false], 0, 1, 0, 0, 0, 0, 0, [("s", [])]⟩
    rfl rfl).2.2.2.2.2.2.2.2.2.2

end CoreSNP
